import Mathlib

/-!
Verification of the monkey-rs tokenizer and parser pipeline: a shallow
embedding of `src/token.rs`, `src/lexer.rs`, `src/ast.rs` and
`src/parser.rs`.  Rust machine integers become `Int` with explicit range
checks, the character iterator becomes a `List Char` consumed from the
front, and the token iterator seen by the parser becomes a `List Token`.
Fallible operations return `Except`; the one `unwrap` in the parser is
modelled by a distinguished `panicked` outcome, and the fuel that makes
recursion structural by a distinguished `fuelOut` outcome, both proved
unreachable.
-/

namespace MonkeyRs

/-- The token vocabulary of `src/token.rs` (`enum Token`). -/
inductive Token where
  | Illegal
  | EOF
  | Ident (name : String)
  | Int (value : Int)
  | Bool (value : Bool)
  | Assign
  | Plus
  | Comma
  | Semicolon
  | LParen
  | RParen
  | LBrace
  | RBrace
  | Bang
  | Minus
  | Slash
  | Asterisk
  | Lt
  | Gt
  | Eq
  | NotEq
  | Function
  | Let
  | If
  | Else
  | Return
deriving DecidableEq, Repr

/-- `Token::from_ident`: keyword and boolean spellings map to their
variants, anything else stays an identifier. -/
def Token.from_ident (ident : String) : Token :=
  if ident = "fn" then Token.Function
  else if ident = "let" then Token.Let
  else if ident = "true" then Token.Bool true
  else if ident = "false" then Token.Bool false
  else if ident = "if" then Token.If
  else if ident = "else" then Token.Else
  else if ident = "return" then Token.Return
  else Token.Ident ident

/-- `impl Display for Token`: the lexeme used by the canonical printer. -/
def Token.display : Token → String
  | Token.Illegal => "ILLEGAL"
  | Token.EOF => "EOF"
  | Token.Ident ident => ident
  | Token.Int int => toString int
  | Token.Bool b => if b then "true" else "false"
  | Token.Assign => "="
  | Token.Plus => "+"
  | Token.Comma => ","
  | Token.Semicolon => ";"
  | Token.LParen => "("
  | Token.RParen => ")"
  | Token.LBrace => "\x7b"
  | Token.RBrace => "\x7d"
  | Token.Bang => "!"
  | Token.Minus => "-"
  | Token.Slash => "/"
  | Token.Asterisk => "*"
  | Token.Lt => "<"
  | Token.Gt => ">"
  | Token.Eq => "=="
  | Token.NotEq => "!="
  | Token.Function => "fn"
  | Token.Let => "let"
  | Token.If => "if"
  | Token.Else => "else"
  | Token.Return => "return"

/-- The derived `Debug` rendering of a token, as used in the parser's
`format!("... {:?}", tok)` error messages. -/
def Token.debugStr : Token → String
  | Token.Illegal => "Illegal"
  | Token.EOF => "EOF"
  | Token.Ident ident => "Ident(\"" ++ ident ++ "\")"
  | Token.Int int => "Int(" ++ toString int ++ ")"
  | Token.Bool b => if b then "Bool(true)" else "Bool(false)"
  | Token.Assign => "Assign"
  | Token.Plus => "Plus"
  | Token.Comma => "Comma"
  | Token.Semicolon => "Semicolon"
  | Token.LParen => "LParen"
  | Token.RParen => "RParen"
  | Token.LBrace => "LBrace"
  | Token.RBrace => "RBrace"
  | Token.Bang => "Bang"
  | Token.Minus => "Minus"
  | Token.Slash => "Slash"
  | Token.Asterisk => "Asterisk"
  | Token.Lt => "Lt"
  | Token.Gt => "Gt"
  | Token.Eq => "Eq"
  | Token.NotEq => "NotEq"
  | Token.Function => "Function"
  | Token.Let => "Let"
  | Token.If => "If"
  | Token.Else => "Else"
  | Token.Return => "Return"

/-- `Lexer::is_letter`: ASCII alphabetic or underscore. -/
def is_letter (c : Char) : Bool :=
  (decide ('a' ≤ c) && decide (c ≤ 'z')) ||
  (decide ('A' ≤ c) && decide (c ≤ 'Z')) ||
  c == '_'

/-- `Lexer::is_digit`: ASCII decimal digit. -/
def is_digit (c : Char) : Bool :=
  decide ('0' ≤ c) && decide (c ≤ '9')

/-- Rust's `char::is_whitespace`: the Unicode White_Space code points. -/
def is_rust_whitespace (c : Char) : Bool :=
  c.toNat == 0x09 || c.toNat == 0x0A || c.toNat == 0x0B || c.toNat == 0x0C ||
  c.toNat == 0x0D || c.toNat == 0x20 || c.toNat == 0x85 || c.toNat == 0xA0 ||
  c.toNat == 0x1680 || (decide (0x2000 ≤ c.toNat) && decide (c.toNat ≤ 0x200A)) ||
  c.toNat == 0x2028 || c.toNat == 0x2029 || c.toNat == 0x202F ||
  c.toNat == 0x205F || c.toNat == 0x3000

/-- `Lexer::skip_whitespace`: drop the maximal run of leading whitespace. -/
def skip_whitespace : List Char → List Char
  | [] => []
  | c :: cs => if is_rust_whitespace c then skip_whitespace cs else c :: cs

/-- The peek-and-push loop shared by `Lexer::read_identifier` and
`Lexer::read_number`: the maximal prefix satisfying `p`, and the rest. -/
def scan_while (p : Char → Bool) : List Char → List Char × List Char
  | [] => ([], [])
  | c :: cs =>
    if p c then
      let (run, rest) := scan_while p cs
      (c :: run, rest)
    else ([], c :: cs)

/-- The numeric value of a string of ASCII decimal digits. -/
def digits_to_nat (ds : List Char) : Nat :=
  ds.foldl (fun acc c => 10 * acc + (c.toNat - '0'.toNat)) 0

/-- Rust's `str::parse::<i64>` restricted to the nonempty all-digit
strings `read_number` hands it: the value when it fits in a signed
64-bit integer, `none` on overflow. -/
def parse_i64 (ds : List Char) : Option Int :=
  let n := digits_to_nat ds
  if n ≤ 9223372036854775807 then some (Int.ofNat n) else none

/-- `Lexer::read_identifier`: extend `c` with the maximal letter run and
classify. -/
def read_identifier (c : Char) (input : List Char) : Option Token × List Char :=
  let (run, rest) := scan_while is_letter input
  (some (Token.from_ident (String.mk (c :: run))), rest)

/-- `Lexer::read_number`: extend `c` with the maximal digit run and parse
as `i64`. -/
def read_number (c : Char) (input : List Char) : Option Token × List Char :=
  let (run, rest) := scan_while is_digit input
  ((parse_i64 (c :: run)).map Token.Int, rest)

/-- The arms of the `match c` in `Lexer::next_token` that map one
single character directly to a token (spec §4.2 item 5), including the
`'\0'` sentinel arm and the `None` wildcard arm that `unwrap_or` turns
into `Illegal`. -/
def single_char_token (c : Char) : Option Token :=
  if c = '+' then some Token.Plus
  else if c = ',' then some Token.Comma
  else if c = ';' then some Token.Semicolon
  else if c = '(' then some Token.LParen
  else if c = ')' then some Token.RParen
  else if c = '\x7b' then some Token.LBrace
  else if c = '\x7d' then some Token.RBrace
  else if c = '-' then some Token.Minus
  else if c = '/' then some Token.Slash
  else if c = '*' then some Token.Asterisk
  else if c = '<' then some Token.Lt
  else if c = '>' then some Token.Gt
  else if c = '\x00' then some Token.EOF
  else none

def token_step (c : Char) (rest : List Char) : Option Token × List Char :=
  if is_letter c then read_identifier c rest
  else if is_digit c then read_number c rest
  else if c = '=' then
    if rest.head? = some '=' then (some Token.Eq, rest.tail)
    else (some Token.Assign, rest)
  else if c = '!' then
    if rest.head? = some '=' then (some Token.NotEq, rest.tail)
    else (some Token.Bang, rest)
  else (single_char_token c, rest)

/-- `Lexer::next_token`: one step of the scanner, returning the token and
the remaining input.  An exhausted input yields `EOF`; the final
`unwrap_or` degrades the unrecognized starts to `Illegal`. -/
def next_token (input : List Char) : Token × List Char :=
  match skip_whitespace input with
  | [] => (Token.EOF, [])
  | c :: rest =>
    ((token_step c rest).1.getD Token.Illegal, (token_step c rest).2)

/-- The lexer's internal state after `n` calls to `next_token` starting
from `input`. -/
def lexer_state (input : List Char) : Nat → List Char
  | 0 => input
  | n + 1 => (next_token (lexer_state input n)).2

/-- The token produced by the `n`-th call to `next_token` (0-based). -/
def nth_token (input : List Char) (n : Nat) : Token :=
  (next_token (lexer_state input n)).1

/-- The token sequence the `Iterator` implementation yields: `next_token`
until the first `EOF`, which is mapped to `None` and ends iteration. -/
def collect_tokens_fuel : Nat → List Char → List Token
  | 0, _ => []
  | fuel + 1, input =>
    let (tok, rest) := next_token input
    if tok = Token.EOF then [] else tok :: collect_tokens_fuel fuel rest

/-- `Lexer::new(input)` iterated to exhaustion; `input.length + 1` steps
always suffice (each non-`EOF` token consumes at least one character). -/
def collect_tokens (input : List Char) : List Token :=
  collect_tokens_fuel (input.length + 1) input

/-- The whole lexing pipeline on a source string. -/
def tokenize (s : String) : List Token :=
  collect_tokens s.data

/-- `ast::Identifier`: a name wrapper. -/
structure Identifier where
  value : String
deriving DecidableEq, Repr

/-- `Identifier::try_from_token`. -/
def Identifier.try_from_token : Token → Option Identifier
  | Token.Ident ident => some ⟨ident⟩
  | _ => none

mutual

/-- `ast::Statement`. -/
inductive Statement where
  | Let (ident : Identifier) (value : Expression)
  | Return (value : Expression)
  | Expression (value : Expression)
  | Block (statements : List Statement)

/-- `ast::Expression` (boxes dropped; `If` bodies are statements). -/
inductive Expression where
  | Identifier (ident : Identifier)
  | IntegerLiteral (value : Int)
  | Boolean (value : Bool)
  | Prefix (operator : Token) (right : Expression)
  | Infix (left : Expression) (operator : Token) (right : Expression)
  | If (condition : Expression) (consequence : Statement)
       (alternative : Option Statement)

end

mutual

/-- `impl Display for Expression`: the canonical printer. -/
def Expression.display : Expression → String
  | Expression.Identifier ident => ident.value
  | Expression.IntegerLiteral value => toString value
  | Expression.Boolean value => if value then "true" else "false"
  | Expression.Prefix operator right =>
    "(" ++ Token.display operator ++ Expression.display right ++ ")"
  | Expression.Infix left operator right =>
    "(" ++ Expression.display left ++ " " ++ Token.display operator ++ " " ++
      Expression.display right ++ ")"
  | Expression.If condition consequence alternative =>
    let head := Token.display Token.If ++ " " ++ Expression.display condition ++
      " " ++ Statement.display consequence
    match alternative with
    | some alt => head ++ " " ++ Token.display Token.Else ++ " " ++
        Statement.display alt
    | none => head

/-- `impl Display for Statement`: the canonical printer. -/
def Statement.display : Statement → String
  | Statement.Let ident value =>
    Token.display Token.Let ++ " " ++ ident.value ++ " = " ++
      Expression.display value ++ ";"
  | Statement.Return value =>
    Token.display Token.Return ++ " " ++ Expression.display value ++ ";"
  | Statement.Expression value => Expression.display value
  | Statement.Block statements =>
    "\x7b" ++ Statement.display_list statements ++ "\x7d"

/-- Concatenated rendering of a statement list, as the `Block` and
`Program` printers emit it (no separators). -/
def Statement.display_list : List Statement → String
  | [] => ""
  | s :: rest => Statement.display s ++ Statement.display_list rest

end

/-- `ast::Program`. -/
structure Program where
  statements : List Statement

/-- `impl Display for Program`: every statement in order, no separators. -/
def Program.display (p : Program) : String :=
  Statement.display_list p.statements

mutual

/-- Every `Let` and `Return` node in an expression carries the
placeholder initializer `IntegerLiteral 0`. -/
def expr_placeholder_ok : Expression → Bool
  | Expression.Identifier _ => true
  | Expression.IntegerLiteral _ => true
  | Expression.Boolean _ => true
  | Expression.Prefix _ right => expr_placeholder_ok right
  | Expression.Infix left _ right =>
    expr_placeholder_ok left && expr_placeholder_ok right
  | Expression.If condition consequence alternative =>
    expr_placeholder_ok condition && stmt_placeholder_ok consequence &&
      (match alternative with
       | some alt => stmt_placeholder_ok alt
       | none => true)

/-- Every `Let` and `Return` node in a statement carries the placeholder
value `IntegerLiteral 0`. -/
def stmt_placeholder_ok : Statement → Bool
  | Statement.Let _ value =>
    (match value with
     | Expression.IntegerLiteral n => n == 0
     | _ => false)
  | Statement.Return value =>
    (match value with
     | Expression.IntegerLiteral n => n == 0
     | _ => false)
  | Statement.Expression value => expr_placeholder_ok value
  | Statement.Block statements => stmts_placeholder_ok statements

/-- `stmt_placeholder_ok` over a list. -/
def stmts_placeholder_ok : List Statement → Bool
  | [] => true
  | s :: rest => stmt_placeholder_ok s && stmts_placeholder_ok rest

end

/-- `parser::Precedence`. -/
inductive Precedence where
  | Lowest
  | Equals
  | LessGreater
  | Sum
  | Product
  | Prefix
  | Call
deriving DecidableEq, Repr

/-- Discriminant order of the `Precedence` variants, which the derived
`PartialOrd` compares. -/
def Precedence.toNat : Precedence → Nat
  | Precedence.Lowest => 0
  | Precedence.Equals => 1
  | Precedence.LessGreater => 2
  | Precedence.Sum => 3
  | Precedence.Product => 4
  | Precedence.Prefix => 5
  | Precedence.Call => 6

/-- The strict order `<` the parser's infix loop tests. -/
def Precedence.lt (p q : Precedence) : Prop :=
  p.toNat < q.toNat

instance : DecidablePred fun pq : Precedence × Precedence => pq.1.lt pq.2 :=
  fun _ => Nat.decLt _ _

instance (p q : Precedence) : Decidable (p.lt q) :=
  Nat.decLt _ _

/-- `Precedence::from_token`. -/
def Precedence.from_token : Token → Precedence
  | Token.Eq | Token.NotEq => Precedence.Equals
  | Token.Lt | Token.Gt => Precedence.LessGreater
  | Token.Plus | Token.Minus => Precedence.Sum
  | Token.Asterisk | Token.Slash => Precedence.Product
  | _ => Precedence.Lowest

/-- How a parser call ends abnormally: `msg` is an `anyhow` error
message, `panicked` models the `unwrap()` in `parse_infix_expression`,
and `fuelOut` is the artificial exhaustion of the recursion fuel (both
proved unreachable below). -/
inductive PErr where
  | panicked
  | fuelOut
  | msg (s : String)
deriving DecidableEq, Repr

/-- `Parser::try_consume_token`: peek, consume on match, report the
expected/actual pair otherwise. -/
def try_consume_token (tok : Token) (ts : List Token) :
    Except PErr Token × List Token :=
  match ts with
  | t :: rest =>
    if t = tok then (Except.ok tok, rest)
    else (Except.error (PErr.msg ("Expected " ++ Token.debugStr tok ++
      ", got " ++ Token.debugStr t)), ts)
  | [] => (Except.error (PErr.msg ("Expected " ++ Token.debugStr tok ++
      ", got EOF")), [])

/-- `Parser::try_consume_ident`. -/
def try_consume_ident (ts : List Token) : Except PErr Identifier × List Token :=
  match ts with
  | t :: rest =>
    match Identifier.try_from_token t with
    | some ident => (Except.ok ident, rest)
    | none => (Except.error (PErr.msg "Expected identifier"), ts)
  | [] => (Except.error (PErr.msg "Expected identifier"), [])

/-- The `for tok in self.lexer.by_ref()` loop in the let/return statement
parsers: drop tokens up to and including the first semicolon, or all of
them. -/
def skip_past_semicolon : List Token → List Token
  | [] => []
  | tok :: rest =>
    if tok = Token.Semicolon then rest else skip_past_semicolon rest

/-- `Parser::parse_let_statement` (entered after the `Let` keyword is
consumed): identifier, `=`, then tokens discarded up to `;`, with the
placeholder initializer `IntegerLiteral 0`. -/
def parse_let_statement (ts : List Token) : Except PErr Statement × List Token :=
  match try_consume_ident ts with
  | (Except.ok ident, ts1) =>
    match try_consume_token Token.Assign ts1 with
    | (Except.ok _, ts2) =>
      (Except.ok (Statement.Let ident (Expression.IntegerLiteral 0)),
        skip_past_semicolon ts2)
    | (Except.error e, ts2) => (Except.error e, ts2)
  | (Except.error e, ts1) => (Except.error e, ts1)

/-- `Parser::parse_return_statement` (entered after the `Return` keyword
is consumed): tokens discarded up to `;`, placeholder value 0. -/
def parse_return_statement (ts : List Token) :
    Except PErr Statement × List Token :=
  (Except.ok (Statement.Return (Expression.IntegerLiteral 0)),
    skip_past_semicolon ts)

mutual

/-- `Parser::parse_expression`: a primary term, then the infix loop.
`fuel` only makes the recursion structural; `3 * ts.length + 1` is proved
sufficient below. -/
def parse_expression : Nat → Precedence → List Token →
    Except PErr Expression × List Token
  | 0, _, ts => (Except.error PErr.fuelOut, ts)
  | fuel + 1, precedence, ts =>
    match ts with
    | [] => (Except.error (PErr.msg "Unexpected EOF"), [])
    | tok :: rest =>
      match parse_primary fuel tok rest with
      | (Except.ok expr, ts1) => parse_infix_loop fuel precedence expr ts1
      | r => r

/-- The `match tok` inside `Parser::parse_expression` building the
primary term from the consumed token `tok`, with `rest` the stream after
it (spec §4.4 step 1). -/
def parse_primary : Nat → Token → List Token →
    Except PErr Expression × List Token
  | 0, _, ts => (Except.error PErr.fuelOut, ts)
  | fuel + 1, tok, rest =>
    match tok with
    | Token.Ident ident =>
      (Except.ok (Expression.Identifier ⟨ident⟩), rest)
    | Token.Int int => (Except.ok (Expression.IntegerLiteral int), rest)
    | Token.Bool b => (Except.ok (Expression.Boolean b), rest)
    | Token.Bang | Token.Minus =>
      match parse_expression fuel Precedence.Prefix rest with
      | (Except.ok right, ts1) =>
        (Except.ok (Expression.Prefix tok right), ts1)
      | (Except.error e, ts1) => (Except.error e, ts1)
    | Token.LParen =>
      match parse_expression fuel Precedence.Lowest rest with
      | (Except.ok expr, ts1) =>
        match ts1 with
        | Token.RParen :: ts2 => (Except.ok expr, ts2)
        | t :: _ =>
          (Except.error (PErr.msg ("Expected RParen, found " ++
            Token.debugStr t)), ts1)
        | [] => (Except.error (PErr.msg "Expected RParen, found EOF"), [])
      | (Except.error e, ts1) => (Except.error e, ts1)
    | Token.If =>
      match try_consume_token Token.LParen rest with
      | (Except.ok _, ts1) =>
        match parse_expression fuel Precedence.Lowest ts1 with
        | (Except.ok condition, ts2) =>
          match try_consume_token Token.RParen ts2 with
          | (Except.ok _, ts3) =>
            match try_consume_token Token.LBrace ts3 with
            | (Except.ok _, ts4) =>
              match parse_expression fuel Precedence.Lowest ts4 with
              | (Except.ok consequence, ts5) =>
                match ts5 with
                | Token.Else :: ts6 =>
                  match try_consume_token Token.LBrace ts6 with
                  | (Except.ok _, ts7) =>
                    match parse_expression fuel Precedence.Lowest ts7 with
                    | (Except.ok alt, ts8) =>
                      (Except.ok (Expression.If condition
                        (Statement.Expression consequence)
                        (some (Statement.Expression alt))), ts8)
                    | (Except.error e, ts8) => (Except.error e, ts8)
                  | (Except.error e, ts7) => (Except.error e, ts7)
                | _ =>
                  (Except.ok (Expression.If condition
                    (Statement.Expression consequence) none), ts5)
              | (Except.error e, ts5) => (Except.error e, ts5)
            | (Except.error e, ts4) => (Except.error e, ts4)
          | (Except.error e, ts3) => (Except.error e, ts3)
        | (Except.error e, ts2) => (Except.error e, ts2)
      | (Except.error e, ts1) => (Except.error e, ts1)
    | _ =>
      (Except.error (PErr.msg ("Unexpected token " ++ Token.debugStr tok)),
        rest)

/-- The `while` loop at the end of `Parser::parse_expression`: keep
consuming infix operators while the peeked token is not `;` and binds
tighter than the caller's precedence. -/
def parse_infix_loop : Nat → Precedence → Expression → List Token →
    Except PErr Expression × List Token
  | 0, _, _, ts => (Except.error PErr.fuelOut, ts)
  | fuel + 1, precedence, left, ts =>
    match ts with
    | [] => (Except.ok left, [])
    | tok :: _ =>
      if tok ≠ Token.Semicolon ∧ precedence.lt (Precedence.from_token tok) then
        match parse_infix_expression fuel left ts with
        | (Except.ok expr, ts1) => parse_infix_loop fuel precedence expr ts1
        | r => r
      else (Except.ok left, ts)

/-- `Parser::parse_infix_expression`: take the operator off the stream
(`unwrap`, hence `panicked` on an empty stream) and parse the right
operand at the operator's precedence. -/
def parse_infix_expression : Nat → Expression → List Token →
    Except PErr Expression × List Token
  | 0, _, ts => (Except.error PErr.fuelOut, ts)
  | fuel + 1, left, ts =>
    match ts with
    | [] => (Except.error PErr.panicked, [])
    | operator :: rest =>
      match parse_expression fuel (Precedence.from_token operator) rest with
      | (Except.ok right, ts1) =>
        (Except.ok (Expression.Infix left operator right), ts1)
      | (Except.error e, ts1) => (Except.error e, ts1)

end

/-- `Parser::parse_expression_statement`: an expression at `Lowest`, then
an optional trailing semicolon. -/
def parse_expression_statement (fuel : Nat) (ts : List Token) :
    Except PErr Statement × List Token :=
  match parse_expression fuel Precedence.Lowest ts with
  | (Except.ok expr, ts1) =>
    match ts1 with
    | Token.Semicolon :: rest => (Except.ok (Statement.Expression expr), rest)
    | _ => (Except.ok (Statement.Expression expr), ts1)
  | (Except.error e, ts1) => (Except.error e, ts1)

/-- The statement loop of `Parser::parse_program`: dispatch on the peeked
token, record statement-level error messages, keep going. -/
def parse_program_loop : Nat → List Token → List Statement → List String →
    Except PErr (List Statement × List String)
  | 0, _, _, _ => Except.error PErr.fuelOut
  | fuel + 1, ts, stmts, errs =>
    match ts with
    | [] => Except.ok (stmts, errs)
    | Token.Let :: rest =>
      match parse_let_statement rest with
      | (Except.ok s, ts1) => parse_program_loop fuel ts1 (stmts ++ [s]) errs
      | (Except.error (PErr.msg m), ts1) =>
        parse_program_loop fuel ts1 stmts (errs ++ [m])
      | (Except.error e, _) => Except.error e
    | Token.Return :: rest =>
      match parse_return_statement rest with
      | (Except.ok s, ts1) => parse_program_loop fuel ts1 (stmts ++ [s]) errs
      | (Except.error (PErr.msg m), ts1) =>
        parse_program_loop fuel ts1 stmts (errs ++ [m])
      | (Except.error e, _) => Except.error e
    | _ =>
      match parse_expression_statement fuel ts with
      | (Except.ok s, ts1) => parse_program_loop fuel ts1 (stmts ++ [s]) errs
      | (Except.error (PErr.msg m), ts1) =>
        parse_program_loop fuel ts1 stmts (errs ++ [m])
      | (Except.error e, _) => Except.error e

/-- The Rust `Debug` rendering of the `Vec<String>` of recorded error
messages, as interpolated by `format!("Parser error: {:?}", errors)`. -/
def debug_string_list (msgs : List String) : String :=
  "[" ++ String.intercalate ", " (msgs.map (fun m => "\"" ++ m ++ "\"")) ++ "]"

/-- `Parser::parse_program` over a token stream: run the statement loop,
then either the program or the single aggregated error. -/
def parse_program (ts : List Token) : Except PErr Program :=
  match parse_program_loop (3 * ts.length + 3) ts [] [] with
  | Except.ok (stmts, []) => Except.ok ⟨stmts⟩
  | Except.ok (_, errs) =>
    Except.error (PErr.msg ("Parser error: " ++ debug_string_list errs))
  | Except.error e => Except.error e

/-- The error messages the statement loop records on a token stream. -/
def parse_errors (ts : List Token) : List String :=
  match parse_program_loop (3 * ts.length + 3) ts [] [] with
  | Except.ok (_, errs) => errs
  | Except.error _ => []

/-- The whole pipeline `Lexer::new` + `Parser::parse_program` on a source
string. -/
def parse_input (s : String) : Except PErr Program :=
  parse_program (tokenize s)

/-- The canonical printing of a successfully parsed input. -/
def parse_display (s : String) : Option String :=
  match parse_input s with
  | Except.ok p => some p.display
  | Except.error _ => none

/-- The invariants of one expression-parser call on the stream `ts0`:
the remaining stream is a suffix of the input, the call never hits the
`unwrap` panic, it never runs out of fuel when `noFuelOut` holds, and a
successfully built expression satisfies the placeholder invariant. -/
def parse_out_good (ts0 : List Token) (noFuelOut : Prop)
    (out : Except PErr Expression × List Token) : Prop :=
  out.2.IsSuffix ts0 ∧
  out.1 ≠ Except.error PErr.panicked ∧
  (noFuelOut → out.1 ≠ Except.error PErr.fuelOut) ∧
  (∀ e ts1, out = (Except.ok e, ts1) → expr_placeholder_ok e = true)

/-! ### Character-class facts -/

theorem is_digit_toNat {c : Char} (h : is_digit c = true) :
    48 ≤ c.toNat ∧ c.toNat ≤ 57 := by
  simp only [is_digit, Bool.and_eq_true, decide_eq_true_eq] at h
  exact h

theorem is_digit_not_ws {c : Char} (h : is_digit c = true) :
    is_rust_whitespace c = false := by
  have hd := is_digit_toNat h
  simp only [is_rust_whitespace, Bool.or_eq_false_iff, beq_eq_false_iff_ne,
    ne_eq, Bool.and_eq_false_iff, decide_eq_false_iff_not]
  omega

theorem is_digit_not_letter {c : Char} (h : is_digit c = true) :
    is_letter c = false := by
  have hd := is_digit_toNat h
  have h1 : decide ('a' ≤ c) = false := decide_eq_false fun hle => by
    have h97 : 97 ≤ c.toNat := hle
    omega
  have h3 : decide ('A' ≤ c) = false := decide_eq_false fun hle => by
    have h65 : 65 ≤ c.toNat := hle
    omega
  have h5 : (c == '_') = false := beq_eq_false_iff_ne.mpr fun hc => by
    have h95 : c.toNat = 95 := by rw [hc]; decide
    omega
  simp [is_letter, h1, h3, h5]

theorem from_ident_ne_eof (s : String) : Token.from_ident s ≠ Token.EOF := by
  simp only [Token.from_ident]
  split_ifs <;> simp

/-! ### Lexer step lemmas -/

theorem skip_whitespace_suffix (l : List Char) : (skip_whitespace l).IsSuffix l := by
  induction l with
  | nil => exact List.suffix_refl _
  | cons c cs ih =>
    simp only [skip_whitespace]
    split
    · exact ih.trans (List.suffix_cons c cs)
    · exact List.suffix_refl _

theorem scan_while_suffix (p : Char → Bool) (l : List Char) :
    (scan_while p l).2.IsSuffix l := by
  induction l with
  | nil => exact List.suffix_refl _
  | cons c cs ih =>
    simp only [scan_while]
    split
    · rcases h : scan_while p cs with ⟨run, rest⟩
      rw [h] at ih
      exact ih.trans (List.suffix_cons c cs)
    · exact List.suffix_refl _

theorem read_identifier_eq (c : Char) (input : List Char) :
    read_identifier c input =
      (some (Token.from_ident (String.mk (c :: (scan_while is_letter input).1))),
       (scan_while is_letter input).2) := by
  rcases h : scan_while is_letter input with ⟨run, rest⟩
  simp [read_identifier, h]

theorem read_number_eq (c : Char) (input : List Char) :
    read_number c input =
      ((parse_i64 (c :: (scan_while is_digit input).1)).map Token.Int,
       (scan_while is_digit input).2) := by
  rcases h : scan_while is_digit input with ⟨run, rest⟩
  simp [read_number, h]

theorem next_token_nil : next_token [] = (Token.EOF, []) := rfl

theorem next_token_skip_nil {input : List Char} (h : skip_whitespace input = []) :
    next_token input = (Token.EOF, []) := by
  simp [next_token, h]

theorem next_token_cons {input : List Char} {c : Char} {rest : List Char}
    (h : skip_whitespace input = c :: rest) :
    next_token input =
      ((token_step c rest).1.getD Token.Illegal, (token_step c rest).2) := by
  simp [next_token, h]

theorem token_step_nul (rest : List Char) :
    token_step '\x00' rest = (some Token.EOF, rest) := by
  have hL : is_letter '\x00' = false := by decide
  have hD : is_digit '\x00' = false := by decide
  simp [token_step, hL, hD, single_char_token]

theorem next_token_skip_nul {input rest : List Char}
    (h : skip_whitespace input = '\x00' :: rest) :
    next_token input = (Token.EOF, rest) := by
  rw [next_token_cons h, token_step_nul]
  rfl

theorem token_step_suffix (c : Char) (rest : List Char) :
    (token_step c rest).2.IsSuffix rest := by
  unfold token_step
  split_ifs <;>
    first
      | (rw [read_identifier_eq]
         exact scan_while_suffix _ _)
      | (rw [read_number_eq]
         exact scan_while_suffix _ _)
      | exact List.tail_suffix rest
      | exact List.suffix_refl _

theorem next_token_suffix (input : List Char) :
    (next_token input).2.IsSuffix input := by
  rcases h : skip_whitespace input with _ | ⟨c, rest⟩
  · rw [next_token_skip_nil h]
    exact List.nil_suffix
  · have hsw : (c :: rest).IsSuffix input := h ▸ skip_whitespace_suffix input
    rw [next_token_cons h]
    exact (token_step_suffix c rest).trans
      ((List.suffix_cons c rest).trans hsw)

theorem next_token_progress {input : List Char} (h : input ≠ []) :
    (next_token input).2.length < input.length := by
  rcases h0 : skip_whitespace input with _ | ⟨c, rest⟩
  · rw [next_token_skip_nil h0]
    simpa using List.length_pos.mpr h
  · have hsw : (c :: rest).IsSuffix input := h0 ▸ skip_whitespace_suffix input
    have h1 : (token_step c rest).2.length ≤ rest.length :=
      (token_step_suffix c rest).length_le
    have h2 : (c :: rest).length ≤ input.length := hsw.length_le
    have h3 : (next_token input).2 = (token_step c rest).2 := by
      rw [next_token_cons h0]
    rw [h3]
    simp only [List.length_cons] at h2
    omega

theorem single_char_token_eof {c : Char}
    (h : (single_char_token c).getD Token.Illegal = Token.EOF) : c = '\x00' := by
  unfold single_char_token at h
  by_cases h1 : c = '+'
  · rw [if_pos h1] at h
    exact absurd h (by decide)
  rw [if_neg h1] at h
  by_cases h2 : c = ','
  · rw [if_pos h2] at h
    exact absurd h (by decide)
  rw [if_neg h2] at h
  by_cases h3 : c = ';'
  · rw [if_pos h3] at h
    exact absurd h (by decide)
  rw [if_neg h3] at h
  by_cases h4 : c = '('
  · rw [if_pos h4] at h
    exact absurd h (by decide)
  rw [if_neg h4] at h
  by_cases h5 : c = ')'
  · rw [if_pos h5] at h
    exact absurd h (by decide)
  rw [if_neg h5] at h
  by_cases h6 : c = '\x7b'
  · rw [if_pos h6] at h
    exact absurd h (by decide)
  rw [if_neg h6] at h
  by_cases h7 : c = '\x7d'
  · rw [if_pos h7] at h
    exact absurd h (by decide)
  rw [if_neg h7] at h
  by_cases h8 : c = '-'
  · rw [if_pos h8] at h
    exact absurd h (by decide)
  rw [if_neg h8] at h
  by_cases h9 : c = '/'
  · rw [if_pos h9] at h
    exact absurd h (by decide)
  rw [if_neg h9] at h
  by_cases h10 : c = '*'
  · rw [if_pos h10] at h
    exact absurd h (by decide)
  rw [if_neg h10] at h
  by_cases h11 : c = '<'
  · rw [if_pos h11] at h
    exact absurd h (by decide)
  rw [if_neg h11] at h
  by_cases h12 : c = '>'
  · rw [if_pos h12] at h
    exact absurd h (by decide)
  rw [if_neg h12] at h
  by_cases h13 : c = '\x00'
  · exact h13
  rw [if_neg h13] at h
  exact absurd h (by decide)

theorem token_step_eof {c : Char} {rest : List Char}
    (h : (token_step c rest).1.getD Token.Illegal = Token.EOF) : c = '\x00' := by
  unfold token_step at h
  split_ifs at h <;>
    first
      | (rw [read_identifier_eq] at h
         exact absurd h (from_ident_ne_eof _))
      | (rw [read_number_eq] at h
         rcases hp : parse_i64 (c :: (scan_while is_digit rest).1) with _ | v <;>
           rw [hp] at h <;> simp at h)
      | exact single_char_token_eof h
      | simp at h

theorem next_token_eof_cases {input : List Char}
    (h : (next_token input).1 = Token.EOF) :
    skip_whitespace input = [] ∨
      ∃ rest, skip_whitespace input = '\x00' :: rest := by
  rcases h0 : skip_whitespace input with _ | ⟨c, rest⟩
  · exact Or.inl rfl
  · right
    rw [next_token_cons h0] at h
    have hc : c = '\x00' := token_step_eof h
    subst hc
    exact ⟨rest, rfl⟩

theorem next_token_eof_nul_free {input : List Char} (hnul : '\x00' ∉ input)
    (h : (next_token input).1 = Token.EOF) : (next_token input).2 = [] := by
  rcases next_token_eof_cases h with h0 | ⟨rest, h0⟩
  · rw [next_token_skip_nil h0]
  · exfalso
    refine hnul ((skip_whitespace_suffix input).subset ?_)
    rw [h0]
    exact List.mem_cons_self _ _

/-! ### Iterating the lexer (`lexer_state`, `nth_token`) -/

theorem lexer_state_suffix (input : List Char) (n : Nat) :
    (lexer_state input n).IsSuffix input := by
  induction n with
  | zero => exact List.suffix_refl _
  | succ n ih => exact (next_token_suffix _).trans ih

theorem lexer_state_nil_succ {input : List Char} {n : Nat}
    (h : lexer_state input n = []) : lexer_state input (n + 1) = [] := by
  show (next_token (lexer_state input n)).2 = []
  rw [h, next_token_nil]

theorem lexer_state_stays_nil {input : List Char} {n : Nat}
    (h : lexer_state input n = []) : ∀ m, n ≤ m → lexer_state input m = [] := by
  intro m hm
  induction m with
  | zero =>
    have : n = 0 := Nat.le_zero.mp hm
    rw [← this]
    exact h
  | succ m ih =>
    rcases Nat.lt_or_ge m n with h1 | h1
    · have : n = m + 1 := by omega
      rw [← this]
      exact h
    · exact lexer_state_nil_succ (ih h1)

theorem lexer_state_length (input : List Char) (n : Nat) :
    (lexer_state input n).length + n ≤ input.length ∨
      lexer_state input n = [] := by
  induction n with
  | zero => left; simp [lexer_state]
  | succ n ih =>
    rcases ih with h | h
    · by_cases hnil : lexer_state input n = []
      · exact Or.inr (lexer_state_nil_succ hnil)
      · left
        have hp : (next_token (lexer_state input n)).2.length <
            (lexer_state input n).length := next_token_progress hnil
        have : lexer_state input (n + 1) =
            (next_token (lexer_state input n)).2 := rfl
        rw [this]
        omega
    · exact Or.inr (lexer_state_nil_succ h)

theorem lexer_state_exhausted (input : List Char) {n : Nat}
    (h : input.length ≤ n) : lexer_state input n = [] := by
  rcases lexer_state_length input n with h1 | h1
  · have : (lexer_state input n).length = 0 := by omega
    exact List.length_eq_zero.mp this
  · exact h1

theorem nth_token_exhausted (input : List Char) {n : Nat}
    (h : input.length ≤ n) : nth_token input n = Token.EOF := by
  unfold nth_token
  rw [lexer_state_exhausted input h, next_token_nil]

theorem nth_token_eof_stable {input : List Char} (hnul : '\x00' ∉ input)
    {m : Nat} (hm : nth_token input m = Token.EOF) :
    ∀ n, m ≤ n → nth_token input n = Token.EOF := by
  have hsub : '\x00' ∉ lexer_state input m := fun hx =>
    hnul ((lexer_state_suffix input m).subset hx)
  have hstate : lexer_state input (m + 1) = [] :=
    next_token_eof_nul_free hsub hm
  intro n hn
  rcases Nat.lt_or_ge n (m + 1) with h | h
  · have : n = m := by omega
    rw [this]
    exact hm
  · unfold nth_token
    rw [lexer_state_stays_nil hstate n h, next_token_nil]

/-! ### A NUL character behaves like end of input -/

theorem skip_whitespace_append_nul (a b : List Char) :
    skip_whitespace (a ++ '\x00' :: b) = skip_whitespace a ++ '\x00' :: b := by
  induction a with
  | nil =>
    have h0 : is_rust_whitespace '\x00' = false := by decide
    simp [skip_whitespace, h0]
  | cons c cs ih =>
    simp only [List.cons_append, skip_whitespace]
    split <;> simp [ih]

theorem scan_while_append_nul (p : Char → Bool) (hp : p '\x00' = false)
    (l b : List Char) :
    scan_while p (l ++ '\x00' :: b) =
      ((scan_while p l).1, (scan_while p l).2 ++ '\x00' :: b) := by
  induction l with
  | nil => simp [scan_while, hp]
  | cons c cs ih =>
    rcases hs : scan_while p cs with ⟨run, rest⟩
    rw [hs] at ih
    simp only [List.cons_append, scan_while, ih, hs]
    split <;> simp [ih]

theorem token_step_append_nul (c : Char) (rest b : List Char) :
    token_step c (rest ++ '\x00' :: b) =
      ((token_step c rest).1, (token_step c rest).2 ++ '\x00' :: b) := by
  unfold token_step
  by_cases h1 : is_letter c
  · rw [if_pos h1, if_pos h1, read_identifier_eq, read_identifier_eq,
      scan_while_append_nul is_letter (by decide)]
  rw [if_neg h1, if_neg h1]
  by_cases h2 : is_digit c
  · rw [if_pos h2, if_pos h2, read_number_eq, read_number_eq,
      scan_while_append_nul is_digit (by decide)]
  rw [if_neg h2, if_neg h2]
  by_cases h3 : c = '='
  · rw [if_pos h3, if_pos h3]
    rcases rest with _ | ⟨r, rs⟩
    · have hh : (([] : List Char) ++ '\x00' :: b).head? = some '\x00' := rfl
      rw [hh]
      have : ¬ (some '\x00' = some '=') := by decide
      rw [if_neg this]
      rfl
    · by_cases hr : r = '='
      · subst hr
        rfl
      · have hne : ¬ (some r = some '=') := by simpa using hr
        have hl : ((r :: rs) ++ '\x00' :: b).head? = some r := rfl
        have hr2 : (r :: rs).head? = some r := rfl
        rw [hl, hr2, if_neg hne, if_neg hne]
  rw [if_neg h3, if_neg h3]
  by_cases h4 : c = '!'
  · rw [if_pos h4, if_pos h4]
    rcases rest with _ | ⟨r, rs⟩
    · have hh : (([] : List Char) ++ '\x00' :: b).head? = some '\x00' := rfl
      rw [hh]
      have : ¬ (some '\x00' = some '=') := by decide
      rw [if_neg this]
      rfl
    · by_cases hr : r = '='
      · subst hr
        rfl
      · have hne : ¬ (some r = some '=') := by simpa using hr
        have hl : ((r :: rs) ++ '\x00' :: b).head? = some r := rfl
        have hr2 : (r :: rs).head? = some r := rfl
        rw [hl, hr2, if_neg hne, if_neg hne]
  rw [if_neg h4, if_neg h4]

theorem next_token_append_nul {a : List Char} (b : List Char)
    (h : skip_whitespace a ≠ []) :
    next_token (a ++ '\x00' :: b) =
      ((next_token a).1, (next_token a).2 ++ '\x00' :: b) := by
  rcases h0 : skip_whitespace a with _ | ⟨c, rest⟩
  · exact absurd h0 h
  · have hcomb : skip_whitespace (a ++ '\x00' :: b) =
        c :: (rest ++ '\x00' :: b) := by
      rw [skip_whitespace_append_nul, h0]
      rfl
    rw [next_token_cons hcomb, next_token_cons h0, token_step_append_nul]

theorem next_token_eof_append_nul {a : List Char} (b : List Char)
    (h : (next_token a).1 = Token.EOF) :
    (next_token (a ++ '\x00' :: b)).1 = Token.EOF := by
  rcases next_token_eof_cases h with h0 | ⟨rest, h0⟩
  · have hcomb : skip_whitespace (a ++ '\x00' :: b) = '\x00' :: b := by
      rw [skip_whitespace_append_nul, h0]
      rfl
    rw [next_token_skip_nul hcomb]
  · have hcomb : skip_whitespace (a ++ '\x00' :: b) =
        '\x00' :: (rest ++ '\x00' :: b) := by
      rw [skip_whitespace_append_nul, h0]
      rfl
    rw [next_token_skip_nul hcomb]

theorem collect_tokens_fuel_append_nul (fuel : Nat) (a b : List Char) :
    collect_tokens_fuel fuel (a ++ '\x00' :: b) = collect_tokens_fuel fuel a := by
  induction fuel generalizing a with
  | zero => rfl
  | succ fuel ih =>
    rcases hn : next_token a with ⟨t, r⟩
    by_cases h : t = Token.EOF
    · have h1 : (next_token a).1 = Token.EOF := by rw [hn, h]
      have h2 := next_token_eof_append_nul b h1
      rcases hn2 : next_token (a ++ '\x00' :: b) with ⟨t2, r2⟩
      rw [hn2] at h2
      simp only [collect_tokens_fuel, hn, hn2, h, h2, if_pos]
    · have hskip : skip_whitespace a ≠ [] := by
        intro h0
        rw [next_token_skip_nil h0] at hn
        injection hn with h4 h5
        exact h h4.symm
      have h3 := next_token_append_nul b hskip
      rw [hn] at h3
      simp only [collect_tokens_fuel, hn, h3, if_neg h]
      exact congrArg (t :: ·) (ih r)

theorem collect_tokens_fuel_irrel :
    ∀ fuel gfuel (input : List Char), input.length < fuel →
      input.length < gfuel →
      collect_tokens_fuel fuel input = collect_tokens_fuel gfuel input := by
  intro fuel
  induction fuel with
  | zero => intro g input h1 _; omega
  | succ fuel ih =>
    intro g input h1 h2
    rcases g with _ | g
    · omega
    rcases hn : next_token input with ⟨t, r⟩
    by_cases h : t = Token.EOF
    · simp only [collect_tokens_fuel, hn, h, if_pos]
    · have hne : input ≠ [] := by
        intro h0
        rw [h0, next_token_nil] at hn
        injection hn with h4 h5
        exact h h4.symm
      have hp : r.length < input.length := by
        have hq := next_token_progress hne
        rw [hn] at hq
        exact hq
      simp only [collect_tokens_fuel, hn, if_neg h]
      exact congrArg (t :: ·) (ih g r (by omega) (by omega))

theorem collect_tokens_append_nul (a b : List Char) :
    collect_tokens (a ++ '\x00' :: b) = collect_tokens a := by
  unfold collect_tokens
  rw [collect_tokens_fuel_append_nul]
  refine collect_tokens_fuel_irrel _ _ _ ?_ ?_
  · simp only [List.length_append, List.length_cons]
    omega
  · omega

theorem scan_while_all (p : Char → Bool) (l z : List Char)
    (hl : ∀ c ∈ l, p c = true)
    (hz : z.head?.all (fun c => !p c) = true) :
    scan_while p (l ++ z) = (l, z) := by
  induction l with
  | nil =>
    rcases z with _ | ⟨c, z'⟩
    · rfl
    · have hc : p c = false := by simpa using hz
      simp [scan_while, hc]
  | cons c cs ih =>
    have hc : p c = true := hl c (List.mem_cons_self _ _)
    have ih' := ih fun d hd => hl d (List.mem_cons_of_mem _ hd)
    simp [scan_while, hc, ih']

/-! ### The lexer claims -/

/-- C4: `Token::from_ident` is total: each of the seven strings `"fn"`,
`"let"`, `"true"`, `"false"`, `"if"`, `"else"`, `"return"` classifies to
its keyword or boolean-literal token variant, and every other string
classifies to an `Identifier` token carrying exactly that string. -/
theorem claim_classification_totality :
    Token.from_ident "fn" = Token.Function ∧
    Token.from_ident "let" = Token.Let ∧
    Token.from_ident "true" = Token.Bool true ∧
    Token.from_ident "false" = Token.Bool false ∧
    Token.from_ident "if" = Token.If ∧
    Token.from_ident "else" = Token.Else ∧
    Token.from_ident "return" = Token.Return ∧
    (∀ s : String, s ≠ "fn" → s ≠ "let" → s ≠ "true" → s ≠ "false" →
      s ≠ "if" → s ≠ "else" → s ≠ "return" →
      Token.from_ident s = Token.Ident s) := by
  refine ⟨rfl, rfl, rfl, rfl, rfl, rfl, rfl, ?_⟩
  intro s h1 h2 h3 h4 h5 h6 h7
  simp [Token.from_ident, h1, h2, h3, h4, h5, h6, h7]

/-- Witness for C4 at the concrete non-keyword string `"abc"`. -/
theorem claim_classification_totality_witness :
    Token.from_ident "abc" = Token.Ident "abc" :=
  claim_classification_totality.2.2.2.2.2.2.2 "abc" (by decide) (by decide)
    (by decide) (by decide) (by decide) (by decide) (by decide)

/-- C5 counterexample: on the input `"\x00a"` the first call to
`next_token` yields `EOF`, yet the second call yields the non-sentinel
token `Ident "a"`, refuting that every call after the first `EndOfInput`
yields `EndOfInput` again. -/
theorem claim_lexer_eof_not_stable :
    nth_token ['\x00', 'a'] 0 = Token.EOF ∧
    nth_token ['\x00', 'a'] 1 = Token.Ident "a" ∧
    Token.Ident "a" ≠ Token.EOF :=
  ⟨rfl, rfl, by decide⟩

/-- C5 (amended): repeated token production terminates — from call
`input.length` on, every call yields `EOF` — and when the input contains
no literal NUL character, after the first `EOF` every subsequent call
yields `EOF` again. -/
theorem claim_lexer_termination_amended (input : List Char) :
    (∀ n, input.length ≤ n → nth_token input n = Token.EOF) ∧
    ('\x00' ∉ input → ∀ m n, m ≤ n → nth_token input m = Token.EOF →
      nth_token input n = Token.EOF) := by
  constructor
  · intro n hn
    exact nth_token_exhausted input hn
  · intro hnul m n hmn hm
    exact nth_token_eof_stable hnul hm n hmn

/-- Witness for C5 (amended) on the input `"5"`. -/
theorem claim_lexer_termination_amended_witness :
    nth_token ['5'] 1 = Token.EOF ∧ nth_token ['5'] 2 = Token.EOF :=
  ⟨(claim_lexer_termination_amended ['5']).1 1 (by decide),
   (claim_lexer_termination_amended ['5']).2 (by decide) 1 2 (by decide)
     ((claim_lexer_termination_amended ['5']).1 1 (by decide))⟩

/-- C6: on a digit start the lexer scans the maximal contiguous run of
decimal digits and produces `Int` holding its value when it fits in a
signed 64-bit integer, and `Illegal` instead of an error on overflow. -/
theorem claim_number_lexing (ds rest : List Char) (hne : ds ≠ [])
    (hds : ∀ c ∈ ds, is_digit c = true)
    (hrest : rest.head?.all (fun c => !is_digit c) = true) :
    next_token (ds ++ rest) =
      (if digits_to_nat ds ≤ 9223372036854775807
       then Token.Int (Int.ofNat (digits_to_nat ds))
       else Token.Illegal, rest) := by
  rcases ds with _ | ⟨d, ds'⟩
  · exact absurd rfl hne
  have hd : is_digit d = true := hds d (List.mem_cons_self _ _)
  have hcons : skip_whitespace ((d :: ds') ++ rest) = d :: (ds' ++ rest) := by
    show skip_whitespace (d :: (ds' ++ rest)) = _
    simp [skip_whitespace, is_digit_not_ws hd]
  rw [next_token_cons hcons]
  unfold token_step
  rw [if_neg (by simp [is_digit_not_letter hd]), if_pos hd, read_number_eq,
    scan_while_all is_digit ds' rest
      (fun c hc => hds c (List.mem_cons_of_mem _ hc)) hrest]
  simp only [parse_i64]
  split_ifs with hof
  · rfl
  · rfl

/-- Witness for C6: `"5;"` lexes to `Int 5`, and the out-of-range run
`"9223372036854775808"` (2^63) degrades to `Illegal`. -/
theorem claim_number_lexing_witness :
    next_token (['5'] ++ [';']) = (Token.Int 5, [';']) ∧
    next_token ("9223372036854775808".data ++ [';']) =
      (Token.Illegal, [';']) := by
  constructor
  · exact (claim_number_lexing ['5'] [';'] (by decide) (by decide)
      (by decide)).trans (by decide)
  · exact (claim_number_lexing "9223372036854775808".data [';'] (by decide)
      (by decide) (by decide)).trans (by decide)

/-- C9: a literal NUL character produces the `EndOfInput` sentinel when
the lexer reaches it, so iteration stops there and the characters after
the NUL are never tokenized even though input remains. -/
theorem claim_nul_truncates_lexing (a b : List Char) :
    (next_token ('\x00' :: b)).1 = Token.EOF ∧
    collect_tokens (a ++ '\x00' :: b) = collect_tokens a := by
  constructor
  · have h : skip_whitespace ('\x00' :: b) = '\x00' :: b := by
      have h0 : is_rust_whitespace '\x00' = false := by decide
      simp [skip_whitespace, h0]
    rw [next_token_skip_nul h]
  · exact collect_tokens_append_nul a b

/-! ### The concrete parser claims -/

/-- C1: the four precedence round-trip cases: parsing then canonically
printing yields the fully parenthesized, left-associative,
precedence-correct structure. -/
theorem claim_precedence_roundtrip :
    parse_display "-a * b;" = some "((-a) * b)" ∧
    parse_display "a + b * c + d / e - f;" =
      some "(((a + (b * c)) + (d / e)) - f)" ∧
    parse_display "5 > 4 == 3 < 4;" = some "((5 > 4) == (3 < 4))" ∧
    parse_display "(5 + 5) * 2;" = some "((5 + 5) * 2)" :=
  ⟨rfl, rfl, rfl, rfl⟩

/-- C2 counterexample: on the input `"if (5 < 10) { x }"`,
`parse_program` does not succeed: the closing brace is never consumed by
the `If` arm, so the top-level loop hits it as a statement start and the
whole parse returns the aggregated error. -/
theorem claim_conditional_not_parsed :
    parse_input "if (5 < 10) { x }" =
      Except.error (PErr.msg "Parser error: [\"Unexpected token RBrace\"]") :=
  rfl

/-- C2 (amended): on `"if (5 < 10) { x }"` the statement loop does parse
a first statement that is a `Conditional` whose condition prints as
`"(5 < 10)"`, but the unconsumed `'\x7d'` then records the statement
error `"Unexpected token RBrace"`, so `parse_program` reports an
aggregated error rather than succeeding. -/
theorem claim_conditional_structure_amended :
    parse_program_loop (3 * (tokenize "if (5 < 10) { x }").length + 3)
        (tokenize "if (5 < 10) { x }") [] [] =
      Except.ok ([Statement.Expression (Expression.If
          (Expression.Infix (Expression.IntegerLiteral 5) Token.Lt
            (Expression.IntegerLiteral 10))
          (Statement.Expression (Expression.Identifier ⟨"x"⟩)) none)],
        ["Unexpected token RBrace"]) ∧
    Expression.display (Expression.Infix (Expression.IntegerLiteral 5)
      Token.Lt (Expression.IntegerLiteral 10)) = "(5 < 10)" :=
  ⟨rfl, rfl⟩

/-- C7: `"let x = 5; let y = 10; let foobar = 838383;"` parses to exactly
three `LetBinding` statements binding `"x"`, `"y"`, `"foobar"` in order
(each with the placeholder initializer the parser currently builds). -/
theorem claim_let_statement_counting :
    parse_input "let x = 5; let y = 10; let foobar = 838383;" =
      Except.ok ⟨[Statement.Let ⟨"x"⟩ (Expression.IntegerLiteral 0),
        Statement.Let ⟨"y"⟩ (Expression.IntegerLiteral 0),
        Statement.Let ⟨"foobar"⟩ (Expression.IntegerLiteral 0)]⟩ :=
  rfl

/-! ### Parser helper lemmas -/

theorem try_consume_token_ok {tok : Token} {ts ts1 : List Token} {u : Token}
    (h : try_consume_token tok ts = (Except.ok u, ts1)) :
    u = tok ∧ ts = tok :: ts1 := by
  rcases ts with _ | ⟨t, rest⟩
  · simp [try_consume_token] at h
  · simp only [try_consume_token] at h
    split_ifs at h with ht
    · simp only [Prod.mk.injEq, Except.ok.injEq] at h
      exact ⟨h.1.symm, by rw [ht, h.2]⟩
    · simp at h

theorem try_consume_token_error {tok : Token} {ts ts1 : List Token} {e : PErr}
    (h : try_consume_token tok ts = (Except.error e, ts1)) :
    ts1 = ts ∧ ∃ m, e = PErr.msg m := by
  rcases ts with _ | ⟨t, rest⟩
  · simp only [try_consume_token, Prod.mk.injEq, Except.error.injEq] at h
    exact ⟨h.2.symm, ⟨_, h.1.symm⟩⟩
  · simp only [try_consume_token] at h
    split_ifs at h with ht
    · simp at h
    · simp only [Prod.mk.injEq, Except.error.injEq] at h
      exact ⟨h.2.symm, ⟨_, h.1.symm⟩⟩

theorem try_consume_ident_ok {ts ts1 : List Token} {ident : Identifier}
    (h : try_consume_ident ts = (Except.ok ident, ts1)) :
    ts = Token.Ident ident.value :: ts1 := by
  rcases ts with _ | ⟨t, rest⟩
  · simp [try_consume_ident] at h
  · rcases t <;> simp only [try_consume_ident, Identifier.try_from_token] at h <;>
      simp at h
    case Ident name =>
      obtain ⟨h1, h2⟩ := h
      rw [← h1, ← h2]

theorem try_consume_ident_error {ts ts1 : List Token} {e : PErr}
    (h : try_consume_ident ts = (Except.error e, ts1)) :
    ts1 = ts ∧ e = PErr.msg "Expected identifier" := by
  rcases ts with _ | ⟨t, rest⟩
  · simp only [try_consume_ident, Prod.mk.injEq, Except.error.injEq] at h
    exact ⟨h.2.symm, h.1.symm⟩
  · rcases t <;> simp only [try_consume_ident, Identifier.try_from_token] at h <;>
      simp only [Prod.mk.injEq, Except.error.injEq] at h
    case Ident name => simp at h
    all_goals exact ⟨h.2.symm, h.1.symm⟩

theorem good_error (ts0 : List Token) (noF : Prop) (m : String)
    {ts1 : List Token} (hsuf : ts1.IsSuffix ts0) :
    parse_out_good ts0 noF (Except.error (PErr.msg m), ts1) :=
  ⟨hsuf, by simp, fun _ => by simp, fun e ts2 h => by simp at h⟩

theorem good_ok (ts0 : List Token) (noF : Prop) {e : Expression}
    {ts1 : List Token} (hsuf : ts1.IsSuffix ts0)
    (hpl : expr_placeholder_ok e = true) :
    parse_out_good ts0 noF (Except.ok e, ts1) := by
  refine ⟨hsuf, by simp, fun _ => by simp, fun e2 ts2 h => ?_⟩
  simp only [Prod.mk.injEq, Except.ok.injEq] at h
  rw [← h.1]
  exact hpl

theorem good_mono {ts0 ts0' : List Token} {nf nf' : Prop}
    {out : Except PErr Expression × List Token}
    (h : parse_out_good ts0' nf' out) (hsub : ts0'.IsSuffix ts0)
    (hnf : nf → nf') : parse_out_good ts0 nf out :=
  ⟨h.1.trans hsub, h.2.1, fun hx => h.2.2.1 (hnf hx), h.2.2.2⟩

theorem skip_past_semicolon_suffix (ts : List Token) :
    (skip_past_semicolon ts).IsSuffix ts := by
  induction ts with
  | nil => exact List.suffix_refl _
  | cons t rest ih =>
    simp only [skip_past_semicolon]
    split
    · exact List.suffix_cons _ _
    · exact ih.trans (List.suffix_cons _ _)

theorem skip_past_semicolon_no_semi {ts : List Token}
    (h : Token.Semicolon ∉ ts) : skip_past_semicolon ts = [] := by
  induction ts with
  | nil => rfl
  | cons t rest ih =>
    simp only [skip_past_semicolon]
    split
    · rename_i ht
      exact absurd (ht ▸ List.mem_cons_self t rest) h
    · exact ih fun hx => h (List.mem_cons_of_mem _ hx)

/-- The simultaneous invariants of the four mutually recursive expression
parsers, by induction on the fuel: remainders are suffixes, the `unwrap`
never panics, `3 ·length + O(1)` fuel suffices, successful parses consume
at least one token, and built expressions satisfy the placeholder
invariant. -/
theorem parser_facts (fuel : Nat) :
    (∀ precedence ts,
      parse_out_good ts (3 * ts.length + 1 ≤ fuel)
        (parse_expression fuel precedence ts) ∧
      (∀ e ts1, parse_expression fuel precedence ts = (Except.ok e, ts1) →
        ts1.length < ts.length) ∧
      (ts ≠ [] → 1 ≤ fuel →
        (parse_expression fuel precedence ts).2.length < ts.length)) ∧
    (∀ tok rest,
      parse_out_good rest (3 * rest.length + 2 ≤ fuel)
        (parse_primary fuel tok rest)) ∧
    (∀ precedence left ts, expr_placeholder_ok left = true →
      parse_out_good ts (3 * ts.length + 1 ≤ fuel)
        (parse_infix_loop fuel precedence left ts)) ∧
    (∀ left ts, ts ≠ [] → expr_placeholder_ok left = true →
      parse_out_good ts (3 * ts.length ≤ fuel)
        (parse_infix_expression fuel left ts) ∧
      (∀ e ts1, parse_infix_expression fuel left ts = (Except.ok e, ts1) →
        ts1.length < ts.length)) := by
  induction fuel with
  | zero =>
    refine ⟨?_, ?_, ?_, ?_⟩
    · intro precedence ts
      refine ⟨?_, ?_, ?_⟩
      · exact ⟨List.suffix_refl _, by simp [parse_expression],
          fun hb => absurd hb (by omega),
          fun e ts1 h => by simp [parse_expression] at h⟩
      · intro e ts1 h
        simp [parse_expression] at h
      · intro _ h1
        exact absurd h1 (by omega)
    · intro tok rest
      exact ⟨List.suffix_refl _, by simp [parse_primary],
        fun hb => absurd hb (by omega),
        fun e ts1 h => by simp [parse_primary] at h⟩
    · intro precedence left ts hleft
      exact ⟨List.suffix_refl _, by simp [parse_infix_loop],
        fun hb => absurd hb (by omega),
        fun e ts1 h => by simp [parse_infix_loop] at h⟩
    · intro left ts hne hleft
      constructor
      · refine ⟨List.suffix_refl _, by simp [parse_infix_expression],
          fun hb => ?_, fun e ts1 h => by simp [parse_infix_expression] at h⟩
        exfalso
        rcases ts with _ | ⟨t, ts'⟩
        · exact hne rfl
        · simp only [List.length_cons] at hb
          omega
      · intro e ts1 h
        simp [parse_infix_expression] at h
  | succ fuel ih =>
    obtain ⟨ihE, ihP, ihL, ihI⟩ := ih
    refine ⟨?_, ?_, ?_, ?_⟩
    · -- parse_expression
      intro precedence ts
      rcases ts with _ | ⟨tok, rest⟩
      · refine ⟨?_, ?_, fun hne _ => absurd rfl hne⟩
        · simp only [parse_expression]
          exact good_error _ _ _ (List.suffix_refl _)
        · intro e ts1 h
          simp [parse_expression] at h
      · rcases hp : parse_primary fuel tok rest with ⟨pr, ts0⟩
        rcases pr with err | v
        · have hres : parse_expression (fuel + 1) precedence (tok :: rest) =
              (Except.error err, ts0) := by
            simp [parse_expression, hp]
          have hgoodP := ihP tok rest
          rw [hp] at hgoodP
          refine ⟨?_, ?_, ?_⟩
          · rw [hres]
            exact good_mono hgoodP (List.suffix_cons _ _)
              (by intro hx; simp only [List.length_cons] at hx; omega)
          · intro e ts1 h
            rw [hres] at h
            simp at h
          · intro _ _
            rw [hres]
            have h0 : ts0.length ≤ rest.length := hgoodP.1.length_le
            show ts0.length < (tok :: rest).length
            simp only [List.length_cons]
            omega
        · have hres : parse_expression (fuel + 1) precedence (tok :: rest) =
              parse_infix_loop fuel precedence v ts0 := by
            simp [parse_expression, hp]
          have hgoodP := ihP tok rest
          rw [hp] at hgoodP
          have hsuf0 : ts0.IsSuffix rest := hgoodP.1
          have hplv : expr_placeholder_ok v = true := hgoodP.2.2.2 v ts0 rfl
          have hgoodL := ihL precedence v ts0 hplv
          refine ⟨?_, ?_, ?_⟩
          · rw [hres]
            refine good_mono hgoodL (hsuf0.trans (List.suffix_cons _ _)) ?_
            intro hx
            have h0 := hsuf0.length_le
            simp only [List.length_cons] at hx
            omega
          · intro e ts1 h
            rw [hres] at h
            have hs : ts1.IsSuffix ts0 := by
              have h2 := hgoodL.1
              rw [h] at h2
              exact h2
            have h1 := hs.length_le
            have h2 := hsuf0.length_le
            simp only [List.length_cons]
            omega
          · intro _ _
            rw [hres]
            have ha : (parse_infix_loop fuel precedence v ts0).2.length ≤
                ts0.length := hgoodL.1.length_le
            have hb2 : ts0.length ≤ rest.length := hsuf0.length_le
            simp only [List.length_cons]
            omega
    · -- parse_primary
      intro tok rest
      cases tok
      case Ident name =>
        simp only [parse_primary]
        exact good_ok _ _ (List.suffix_refl _) (by simp [expr_placeholder_ok])
      case Int n =>
        simp only [parse_primary]
        exact good_ok _ _ (List.suffix_refl _) (by simp [expr_placeholder_ok])
      case Bool b =>
        simp only [parse_primary]
        exact good_ok _ _ (List.suffix_refl _) (by simp [expr_placeholder_ok])
      case Bang =>
        simp only [parse_primary]
        rcases he : parse_expression fuel Precedence.Prefix rest with ⟨r, ts1⟩
        have hgood := (ihE Precedence.Prefix rest).1
        rw [he] at hgood
        rcases r with err | v
        · simp only [he]
          exact good_mono hgood (List.suffix_refl _) (by intro hx; omega)
        · simp only [he]
          refine good_ok _ _ hgood.1 ?_
          simp only [expr_placeholder_ok]
          exact hgood.2.2.2 v ts1 rfl
      case Minus =>
        simp only [parse_primary]
        rcases he : parse_expression fuel Precedence.Prefix rest with ⟨r, ts1⟩
        have hgood := (ihE Precedence.Prefix rest).1
        rw [he] at hgood
        rcases r with err | v
        · simp only [he]
          exact good_mono hgood (List.suffix_refl _) (by intro hx; omega)
        · simp only [he]
          refine good_ok _ _ hgood.1 ?_
          simp only [expr_placeholder_ok]
          exact hgood.2.2.2 v ts1 rfl
      case LParen =>
        simp only [parse_primary]
        rcases he : parse_expression fuel Precedence.Lowest rest with ⟨r, ts1⟩
        have hgood := (ihE Precedence.Lowest rest).1
        rw [he] at hgood
        rcases r with err | v
        · simp only [he]
          exact good_mono hgood (List.suffix_refl _) (by intro hx; omega)
        · simp only [he]
          have hpl : expr_placeholder_ok v = true := hgood.2.2.2 v ts1 rfl
          split
          · exact good_ok _ _ ((List.suffix_cons _ _).trans hgood.1) hpl
          · exact good_error _ _ _ hgood.1
          · exact good_error _ _ _ hgood.1
      case If =>
        simp only [parse_primary]
        rcases h1 : try_consume_token Token.LParen rest with ⟨r1, ts1⟩
        rcases r1 with e1 | u1
        · simp only [h1]
          obtain ⟨hts1, m1, hm1⟩ := try_consume_token_error h1
          subst hm1
          subst hts1
          exact good_error _ _ _ (List.suffix_refl _)
        · simp only [h1]
          obtain ⟨hu1, hrest⟩ := try_consume_token_ok h1
          have hlen1 : ts1.length + 1 = rest.length := by rw [hrest]; rfl
          have hsuf1 : ts1.IsSuffix rest := by
            rw [hrest]; exact List.suffix_cons _ _
          rcases h2 : parse_expression fuel Precedence.Lowest ts1 with ⟨r2, ts2⟩
          have hgood2 := (ihE Precedence.Lowest ts1).1
          rw [h2] at hgood2
          rcases r2 with e2 | condition
          · simp only [h2]
            exact good_mono hgood2 hsuf1 (by intro hx; omega)
          · have hsuf2 : ts2.IsSuffix rest := hgood2.1.trans hsuf1
            have hplc : expr_placeholder_ok condition = true :=
              hgood2.2.2.2 condition ts2 rfl
            rcases h3 : try_consume_token Token.RParen ts2 with ⟨r3, ts3⟩
            rcases r3 with e3 | u3
            · simp only [h2, h3]
              obtain ⟨hts3, m3, hm3⟩ := try_consume_token_error h3
              subst hm3
              subst hts3
              exact good_error _ _ _ hsuf2
            · simp only [h2, h3]
              obtain ⟨hu3, hts2⟩ := try_consume_token_ok h3
              have hsuf3 : ts3.IsSuffix rest := by
                refine (List.suffix_cons Token.RParen ts3).trans ?_
                rw [← hts2]
                exact hsuf2
              rcases h4 : try_consume_token Token.LBrace ts3 with ⟨r4, ts4⟩
              rcases r4 with e4 | u4
              · simp only [h4]
                obtain ⟨hts4, m4, hm4⟩ := try_consume_token_error h4
                subst hm4
                subst hts4
                exact good_error _ _ _ hsuf3
              · simp only [h4]
                obtain ⟨hu4, hts3'⟩ := try_consume_token_ok h4
                have hsuf4 : ts4.IsSuffix rest := by
                  refine (List.suffix_cons Token.LBrace ts4).trans ?_
                  rw [← hts3']
                  exact hsuf3
                have hlen4 : ts4.length < rest.length := by
                  have h41 : ts3.length = ts4.length + 1 := by rw [hts3']; rfl
                  have h31 := hsuf3.length_le
                  omega
                rcases h5 : parse_expression fuel Precedence.Lowest ts4 with ⟨r5, ts5⟩
                have hgood5 := (ihE Precedence.Lowest ts4).1
                rw [h5] at hgood5
                rcases r5 with e5 | consequence
                · simp only [h5]
                  exact good_mono hgood5 hsuf4 (by intro hx; omega)
                · have hsuf5 : ts5.IsSuffix rest := hgood5.1.trans hsuf4
                  have hplq : expr_placeholder_ok consequence = true :=
                    hgood5.2.2.2 consequence ts5 rfl
                  simp only [h5]
                  split
                  · rename_i ts6
                    rcases h6 : try_consume_token Token.LBrace ts6 with ⟨r6, ts7⟩
                    rcases r6 with e6 | u6
                    · simp only [h6]
                      obtain ⟨hts7, m6, hm6⟩ := try_consume_token_error h6
                      subst hm6
                      subst hts7
                      exact good_error _ _ _ ((List.suffix_cons _ _).trans hsuf5)
                    · simp only [h6]
                      obtain ⟨hu6, hts6'⟩ := try_consume_token_ok h6
                      have hsuf7 : ts7.IsSuffix rest := by
                        refine (List.suffix_cons Token.LBrace ts7).trans ?_
                        rw [← hts6']
                        exact (List.suffix_cons _ _).trans hsuf5
                      have hlen7 : ts7.length < rest.length := by
                        have h71 : ts6.length = ts7.length + 1 := by
                          rw [hts6']; rfl
                        have h61 := hsuf5.length_le
                        simp only [List.length_cons] at h61
                        omega
                      rcases h7 : parse_expression fuel Precedence.Lowest ts7
                        with ⟨r7, ts8⟩
                      have hgood7 := (ihE Precedence.Lowest ts7).1
                      rw [h7] at hgood7
                      rcases r7 with e7 | alt
                      · simp only [h7]
                        exact good_mono hgood7 hsuf7 (by intro hx; omega)
                      · simp only [h7]
                        have hplA : expr_placeholder_ok alt = true :=
                          hgood7.2.2.2 alt ts8 rfl
                        refine good_ok _ _ (hgood7.1.trans hsuf7) ?_
                        simp [expr_placeholder_ok, stmt_placeholder_ok,
                          hplc, hplq, hplA]
                  · refine good_ok _ _ hsuf5 ?_
                    simp [expr_placeholder_ok, stmt_placeholder_ok, hplc, hplq]
      all_goals
        simp only [parse_primary]
        exact good_error _ _ _ (List.suffix_refl _)
    · -- parse_infix_loop
      intro precedence left ts hleft
      rcases ts with _ | ⟨tok, ts'⟩
      · simp only [parse_infix_loop]
        exact good_ok _ _ (List.suffix_refl _) hleft
      · simp only [parse_infix_loop]
        by_cases hc : tok ≠ Token.Semicolon ∧
            precedence.lt (Precedence.from_token tok)
        · rw [if_pos hc]
          rcases hi : parse_infix_expression fuel left (tok :: ts') with ⟨ri, tsi⟩
          have hgoodI := ihI left (tok :: ts') (by simp) hleft
          have hgI := hgoodI.1
          rw [hi] at hgI
          rcases ri with e | v
          · simp only [hi]
            exact good_mono hgI (List.suffix_refl _)
              (by intro hx; simp only [List.length_cons] at hx ⊢; omega)
          · simp only [hi]
            have hplv : expr_placeholder_ok v = true := hgI.2.2.2 v tsi rfl
            have hstrict := hgoodI.2 v tsi hi
            refine good_mono (ihL precedence v tsi hplv) hgI.1 ?_
            intro hx
            simp only [List.length_cons] at hx hstrict
            omega
        · rw [if_neg hc]
          exact good_ok _ _ (List.suffix_refl _) hleft
    · -- parse_infix_expression
      intro left ts hne hleft
      rcases ts with _ | ⟨op, rest⟩
      · exact absurd rfl hne
      constructor
      · simp only [parse_infix_expression]
        rcases he : parse_expression fuel (Precedence.from_token op) rest
          with ⟨r, ts1⟩
        have hgood := (ihE (Precedence.from_token op) rest).1
        rw [he] at hgood
        rcases r with err | v
        · simp only [he]
          exact good_mono hgood (List.suffix_cons _ _)
            (by intro hx; simp only [List.length_cons] at hx; omega)
        · simp only [he]
          refine good_ok _ _ (hgood.1.trans (List.suffix_cons _ _)) ?_
          simp [expr_placeholder_ok, hleft, hgood.2.2.2 v ts1 rfl]
      · intro e ts1 h
        simp only [parse_infix_expression] at h
        rcases he : parse_expression fuel (Precedence.from_token op) rest
          with ⟨r, ts2⟩
        rw [he] at h
        rcases r with err | v
        · simp at h
        · simp only [Prod.mk.injEq, Except.ok.injEq] at h
          obtain ⟨-, hts⟩ := h
          have hstrict := (ihE (Precedence.from_token op) rest).2.1 v ts2 he
          rw [← hts]
          simp only [List.length_cons]
          omega

theorem parse_let_statement_facts (ts : List Token) :
    (parse_let_statement ts).2.IsSuffix ts ∧
    (∀ s ts1, parse_let_statement ts = (Except.ok s, ts1) →
      stmt_placeholder_ok s = true) ∧
    (∀ e ts1, parse_let_statement ts = (Except.error e, ts1) →
      ∃ m, e = PErr.msg m) := by
  rcases hi : try_consume_ident ts with ⟨ri, ts1⟩
  rcases ri with e | ident
  · obtain ⟨hts, hmsg⟩ := try_consume_ident_error hi
    have hres : parse_let_statement ts = (Except.error e, ts1) := by
      simp [parse_let_statement, hi]
    rw [hres]
    subst hts
    exact ⟨List.suffix_refl _, fun s ts2 h => by simp at h,
      fun e2 ts2 h => by
        simp only [Prod.mk.injEq, Except.error.injEq] at h
        exact ⟨"Expected identifier", by rw [← h.1, hmsg]⟩⟩
  · rcases ha : try_consume_token Token.Assign ts1 with ⟨ra, ts2⟩
    rcases ra with e | u
    · obtain ⟨hts2, m, hm⟩ := try_consume_token_error ha
      have hres : parse_let_statement ts = (Except.error e, ts2) := by
        simp [parse_let_statement, hi, ha]
      rw [hres]
      have hsuf : ts2.IsSuffix ts := by
        rw [hts2, try_consume_ident_ok hi]
        exact List.suffix_cons _ _
      exact ⟨hsuf, fun s ts3 h => by simp at h,
        fun e2 ts3 h => by
          simp only [Prod.mk.injEq, Except.error.injEq] at h
          exact ⟨m, by rw [← h.1, hm]⟩⟩
    · have hres : parse_let_statement ts =
          (Except.ok (Statement.Let ident (Expression.IntegerLiteral 0)),
            skip_past_semicolon ts2) := by
        simp [parse_let_statement, hi, ha]
      rw [hres]
      have hsuf : (skip_past_semicolon ts2).IsSuffix ts := by
        refine (skip_past_semicolon_suffix ts2).trans ?_
        have h1 : ts1 = Token.Assign :: ts2 := (try_consume_token_ok ha).2
        have h2 : ts = Token.Ident ident.value :: ts1 := try_consume_ident_ok hi
        rw [h2, h1]
        exact (List.suffix_cons _ _).trans (List.suffix_cons _ _)
      refine ⟨hsuf, fun s ts3 h => ?_, fun e2 ts3 h => by simp at h⟩
      simp only [Prod.mk.injEq, Except.ok.injEq] at h
      rw [← h.1]
      simp [stmt_placeholder_ok]

theorem parse_return_statement_facts (ts : List Token) :
    (parse_return_statement ts).2.IsSuffix ts ∧
    (∀ s ts1, parse_return_statement ts = (Except.ok s, ts1) →
      stmt_placeholder_ok s = true) := by
  refine ⟨skip_past_semicolon_suffix ts, fun s ts1 h => ?_⟩
  simp only [parse_return_statement, Prod.mk.injEq, Except.ok.injEq] at h
  rw [← h.1]
  simp [stmt_placeholder_ok]

theorem expr_stmt_ok_facts {fuel : Nat} {ts ts2 : List Token} {v : Expression}
    (hres : parse_expression_statement fuel ts =
      (Except.ok (Statement.Expression v), ts2))
    (hsuf : ts2.IsSuffix ts) (hlt : ts2.length < ts.length)
    (hpl : expr_placeholder_ok v = true) :
    (parse_expression_statement fuel ts).2.IsSuffix ts ∧
    (ts ≠ [] → 1 ≤ fuel →
      (parse_expression_statement fuel ts).2.length < ts.length) ∧
    (parse_expression_statement fuel ts).1 ≠ Except.error PErr.panicked ∧
    (3 * ts.length + 1 ≤ fuel →
      (parse_expression_statement fuel ts).1 ≠ Except.error PErr.fuelOut) ∧
    (∀ s ts1, parse_expression_statement fuel ts = (Except.ok s, ts1) →
      stmt_placeholder_ok s = true) ∧
    (3 * ts.length + 1 ≤ fuel →
      ∀ e ts1, parse_expression_statement fuel ts = (Except.error e, ts1) →
        ∃ m, e = PErr.msg m) := by
  rw [hres]
  refine ⟨hsuf, fun _ _ => hlt, by simp, fun _ => by simp, fun s ts3 h => ?_,
    fun hb e2 ts3 h => by simp at h⟩
  simp only [Prod.mk.injEq, Except.ok.injEq] at h
  rw [← h.1]
  simpa [stmt_placeholder_ok] using hpl

theorem parse_expression_statement_facts (fuel : Nat) (ts : List Token) :
    (parse_expression_statement fuel ts).2.IsSuffix ts ∧
    (ts ≠ [] → 1 ≤ fuel →
      (parse_expression_statement fuel ts).2.length < ts.length) ∧
    (parse_expression_statement fuel ts).1 ≠ Except.error PErr.panicked ∧
    (3 * ts.length + 1 ≤ fuel →
      (parse_expression_statement fuel ts).1 ≠ Except.error PErr.fuelOut) ∧
    (∀ s ts1, parse_expression_statement fuel ts = (Except.ok s, ts1) →
      stmt_placeholder_ok s = true) ∧
    (3 * ts.length + 1 ≤ fuel →
      ∀ e ts1, parse_expression_statement fuel ts = (Except.error e, ts1) →
        ∃ m, e = PErr.msg m) := by
  have hE := (parser_facts fuel).1 Precedence.Lowest ts
  rcases he : parse_expression fuel Precedence.Lowest ts with ⟨r, ts1⟩
  have hgood := hE.1
  rw [he] at hgood
  have hestrict := hE.2.2
  rw [he] at hestrict
  rcases r with err | v
  · have hep : err ≠ PErr.panicked := by
      intro hcontra
      exact hgood.2.1 (by rw [hcontra])
    have hef : 3 * ts.length + 1 ≤ fuel → err ≠ PErr.fuelOut := by
      intro hb hcontra
      exact hgood.2.2.1 hb (by rw [hcontra])
    have hres : parse_expression_statement fuel ts = (Except.error err, ts1) := by
      simp [parse_expression_statement, he]
    rw [hres]
    refine ⟨hgood.1, fun hne h1 => hestrict hne h1,
      fun hcontra => hep (Except.error.inj hcontra),
      fun hb hcontra => hef hb (Except.error.inj hcontra),
      fun s ts2 h => by simp at h,
      fun hb e2 ts2 h => ?_⟩
    simp only [Prod.mk.injEq, Except.error.injEq] at h
    rcases err with _ | _ | m
    · exact absurd rfl hep
    · exact absurd rfl (hef hb)
    · exact ⟨m, by rw [← h.1]⟩
  · have hstrict := hE.2.1 v ts1 he
    have hpl : expr_placeholder_ok v = true := hgood.2.2.2 v ts1 rfl
    have hsuf : ts1.IsSuffix ts := hgood.1
    rcases ts1 with _ | ⟨t1, rest1⟩
    · refine expr_stmt_ok_facts ?_ hsuf hstrict hpl
      unfold parse_expression_statement
      rw [he]
    · rcases t1
      case Semicolon =>
        refine expr_stmt_ok_facts ?_ ((List.suffix_cons _ _).trans hsuf) ?_ hpl
        · unfold parse_expression_statement
          rw [he]
        · simp only [List.length_cons] at hstrict
          omega
      all_goals
        refine expr_stmt_ok_facts ?_ hsuf hstrict hpl
        unfold parse_expression_statement
        rw [he]

theorem parse_program_loop_ok :
    ∀ fuel ts stmts errs, 3 * ts.length + 2 ≤ fuel →
      (∀ s ∈ stmts, stmt_placeholder_ok s = true) →
      ∃ stmts2 errs2,
        parse_program_loop fuel ts stmts errs = Except.ok (stmts2, errs2) ∧
        (∀ s ∈ stmts2, stmt_placeholder_ok s = true) := by
  intro fuel
  induction fuel with
  | zero =>
    intro ts stmts errs hb _
    exact absurd hb (by omega)
  | succ fuel ih =>
    intro ts stmts errs hb hpl
    rcases ts with _ | ⟨tok, rest⟩
    · exact ⟨stmts, errs, rfl, hpl⟩
    simp only [List.length_cons] at hb
    simp only [parse_program_loop]
    split
    · rename_i heq
      exact absurd heq (by simp)
    · rename_i ts9 rest9 heq
      have hre : rest = rest9 := by
        injection heq with h1 h2
      rw [← hre]
      have hfacts := parse_let_statement_facts rest
      rcases hs : parse_let_statement rest with ⟨rs, ts1⟩
      have hlen : ts1.length ≤ rest.length := by
        have h0 := hfacts.1.length_le
        rw [hs] at h0
        exact h0
      rcases rs with e | s
      · obtain ⟨m, hm⟩ := hfacts.2.2 e ts1 hs
        subst hm
        exact ih ts1 stmts (errs ++ [m]) (by omega) hpl
      · refine ih ts1 (stmts ++ [s]) errs (by omega) ?_
        intro s2 hs2
        rcases List.mem_append.mp hs2 with h2 | h2
        · exact hpl s2 h2
        · rw [List.mem_singleton.mp h2]
          exact hfacts.2.1 s ts1 hs
    · rename_i ts9 rest9 heq
      have hre : rest = rest9 := by
        injection heq with h1 h2
      rw [← hre]
      have hlen : (skip_past_semicolon rest).length ≤ rest.length :=
        (skip_past_semicolon_suffix rest).length_le
      refine ih (skip_past_semicolon rest)
        (stmts ++ [Statement.Return (Expression.IntegerLiteral 0)]) errs
        (by omega) ?_
      intro s2 hs2
      rcases List.mem_append.mp hs2 with h2 | h2
      · exact hpl s2 h2
      · rw [List.mem_singleton.mp h2]
        simp [stmt_placeholder_ok]
    · have hfacts := parse_expression_statement_facts fuel (tok :: rest)
      have hb1 : 3 * (tok :: rest).length + 1 ≤ fuel := by
        simp only [List.length_cons]
        omega
      rcases hx : parse_expression_statement fuel (tok :: rest) with ⟨rx, ts1⟩
      have hstrict : ts1.length < (tok :: rest).length := by
        have h0 := hfacts.2.1 (by simp) (by omega)
        rw [hx] at h0
        exact h0
      simp only [List.length_cons] at hstrict
      rcases rx with e | s
      · obtain ⟨m, hm⟩ := hfacts.2.2.2.2.2 hb1 e ts1 hx
        subst hm
        exact ih ts1 stmts (errs ++ [m]) (by omega) hpl
      · refine ih ts1 (stmts ++ [s]) errs (by omega) ?_
        intro s2 hs2
        rcases List.mem_append.mp hs2 with h2 | h2
        · exact hpl s2 h2
        · rw [List.mem_singleton.mp h2]
          exact hfacts.2.2.2.2.1 s ts1 hx

theorem parse_program_loop_std (ts : List Token) :
    ∃ stmts errs,
      parse_program_loop (3 * ts.length + 3) ts [] [] =
        Except.ok (stmts, errs) ∧
      ∀ s ∈ stmts, stmt_placeholder_ok s = true :=
  parse_program_loop_ok (3 * ts.length + 3) ts [] [] (by omega) (by simp)

/-! ### The remaining parser claims -/

/-- C8: the parser never panics or aborts the process: on every token
stream `parse_program` returns either a program or an ordinary error
message — never the `panicked` outcome that models the `unwrap` in
`parse_infix_expression` (reachable only with a peeked token present)
and never fuel exhaustion — and exhaustion of required input in a
primary position, at a required token or at a required identifier is
reported as a descriptive parse error. -/
theorem claim_parser_no_crash (ts : List Token) :
    ((∃ p, parse_program ts = Except.ok p) ∨
      (∃ m, parse_program ts = Except.error (PErr.msg m))) ∧
    (∀ fuel precedence, parse_expression (fuel + 1) precedence [] =
      (Except.error (PErr.msg "Unexpected EOF"), [])) ∧
    (∀ tok, try_consume_token tok [] =
      (Except.error (PErr.msg ("Expected " ++ Token.debugStr tok ++
        ", got EOF")), [])) ∧
    try_consume_ident [] = (Except.error (PErr.msg "Expected identifier"), []) := by
  refine ⟨?_, fun fuel precedence => rfl, fun tok => rfl, rfl⟩
  obtain ⟨stmts, errs, hloop, -⟩ := parse_program_loop_std ts
  unfold parse_program
  rw [hloop]
  rcases errs with _ | ⟨m, ms⟩
  · exact Or.inl ⟨⟨stmts⟩, rfl⟩
  · exact Or.inr ⟨_, rfl⟩

/-- C3: `parse_program` returns `Ok` exactly when the statement loop
recorded no error message; otherwise it returns the single aggregated
error whose message carries every recorded message in order; and a
statement-level failure does not abort the loop — on `[RBrace, RBrace]`
both statements are attempted and both errors recorded. -/
theorem claim_error_aggregation (ts : List Token) :
    ((∃ p, parse_program ts = Except.ok p) ↔ parse_errors ts = []) ∧
    (parse_errors ts ≠ [] →
      parse_program ts = Except.error (PErr.msg
        ("Parser error: " ++ debug_string_list (parse_errors ts)))) ∧
    parse_errors [Token.RBrace, Token.RBrace] =
      ["Unexpected token RBrace", "Unexpected token RBrace"] := by
  obtain ⟨stmts, errs, hloop, -⟩ := parse_program_loop_std ts
  have hpe : parse_errors ts = errs := by
    unfold parse_errors
    rw [hloop]
  refine ⟨?_, ?_, rfl⟩
  · rw [hpe]
    unfold parse_program
    rw [hloop]
    rcases errs with _ | ⟨m, ms⟩
    · simp
    · constructor
      · intro h
        obtain ⟨p, hp⟩ := h
        simp at hp
      · intro h
        simp at h
  · intro hne
    rw [hpe] at hne ⊢
    unfold parse_program
    rw [hloop]
    rcases errs with _ | ⟨m, ms⟩
    · exact absurd rfl hne
    · rfl

/-- Witness for C3 at the concrete stream `[RBrace]`. -/
theorem claim_error_aggregation_witness :
    parse_errors [Token.RBrace] ≠ [] ∧
    parse_program [Token.RBrace] = Except.error (PErr.msg
      ("Parser error: " ++ debug_string_list (parse_errors [Token.RBrace]))) :=
  ⟨by decide, (claim_error_aggregation [Token.RBrace]).2.1 (by decide)⟩

/-- C10: whenever `parse_program` succeeds, every `Let` and every
`Return` node of the resulting program carries the placeholder value
`IntegerLiteral 0`, regardless of the value tokens written; and a
`let`/`return` statement whose value tokens are never terminated by `;`
still parses successfully, silently consuming all remaining tokens. -/
theorem claim_placeholder_values :
    (∀ ts p, parse_program ts = Except.ok p →
      ∀ s ∈ p.statements, stmt_placeholder_ok s = true) ∧
    (∀ x ts, Token.Semicolon ∉ ts →
      parse_program (Token.Let :: Token.Ident x :: Token.Assign :: ts) =
        Except.ok ⟨[Statement.Let ⟨x⟩ (Expression.IntegerLiteral 0)]⟩) ∧
    (∀ ts, Token.Semicolon ∉ ts →
      parse_program (Token.Return :: ts) =
        Except.ok ⟨[Statement.Return (Expression.IntegerLiteral 0)]⟩) := by
  refine ⟨?_, ?_, ?_⟩
  · intro ts p hp s hs
    obtain ⟨stmts, errs, hloop, hplace⟩ := parse_program_loop_std ts
    unfold parse_program at hp
    rw [hloop] at hp
    rcases errs with _ | ⟨m, ms⟩
    · simp only [Except.ok.injEq] at hp
      rw [← hp] at hs
      exact hplace s hs
    · simp at hp
  · intro x ts hsemi
    have hskip := skip_past_semicolon_no_semi hsemi
    unfold parse_program
    rw [show 3 * (Token.Let :: Token.Ident x :: Token.Assign :: ts).length + 3 =
      (3 * ts.length + 11) + 1 by simp only [List.length_cons]; ring]
    have hstep : parse_program_loop ((3 * ts.length + 11) + 1)
        (Token.Let :: Token.Ident x :: Token.Assign :: ts) [] [] =
        parse_program_loop (3 * ts.length + 11) []
          [Statement.Let ⟨x⟩ (Expression.IntegerLiteral 0)] [] := by
      simp [parse_program_loop, parse_let_statement, try_consume_ident,
        Identifier.try_from_token, try_consume_token, hskip]
    rw [hstep, show 3 * ts.length + 11 = (3 * ts.length + 10) + 1 by omega]
    rfl
  · intro ts hsemi
    have hskip := skip_past_semicolon_no_semi hsemi
    unfold parse_program
    rw [show 3 * (Token.Return :: ts).length + 3 =
      (3 * ts.length + 5) + 1 by simp only [List.length_cons]; ring]
    have hstep : parse_program_loop ((3 * ts.length + 5) + 1)
        (Token.Return :: ts) [] [] =
        parse_program_loop (3 * ts.length + 5) []
          [Statement.Return (Expression.IntegerLiteral 0)] [] := by
      simp [parse_program_loop, parse_return_statement, hskip]
    rw [hstep, show 3 * ts.length + 5 = (3 * ts.length + 4) + 1 by omega]
    rfl

/-- Witness for C10 on unterminated concrete `let` and `return` streams. -/
theorem claim_placeholder_values_witness :
    parse_program [Token.Let, Token.Ident "x", Token.Assign, Token.Int 5] =
      Except.ok ⟨[Statement.Let ⟨"x"⟩ (Expression.IntegerLiteral 0)]⟩ ∧
    parse_program [Token.Return, Token.Int 7] =
      Except.ok ⟨[Statement.Return (Expression.IntegerLiteral 0)]⟩ ∧
    stmt_placeholder_ok (Statement.Let ⟨"x"⟩ (Expression.IntegerLiteral 0)) =
      true := by
  have h2 := claim_placeholder_values.2.1 "x" [Token.Int 5] (by decide)
  refine ⟨h2, claim_placeholder_values.2.2 [Token.Int 7] (by decide), ?_⟩
  exact claim_placeholder_values.1 _ _ h2 _ (List.mem_singleton.mpr rfl)

end MonkeyRs
